import Mathlib

/-!
# Verification of the Swiggy/Zomato offers widget

Shallow embedding of the core string-normalization, fuzzy-matching,
catalog-building and offer-matching/deduplication logic of the repository.
The primary component (`src/unnamed/part_002`) supplies `toNorm`, `getBase`,
`getVariant`, `brandCanonicalize`, `splitList`, `lev`, `scoreCandidate`,
`makeEntry`, `normalizeUrl`, `offerKey`, `dedupWrappers`, `matchesFor` and the
suggestion pipeline of `onChangeQuery`; sibling variants supply
`levenshteinDistance` (App.jsx / part_001, and the guarded part_000 form) and
`getMatchScore` (part_001 / App.jsx).

Modelling conventions:
* JavaScript strings are Lean `String`s (lists of characters); all concrete
  inputs in this development are ASCII.
* `String.prototype.normalize("NFKD")` inside `toNorm` is modelled as the
  identity map.  On the ASCII range NFKD is the identity, and every concrete
  string considered here is ASCII.
* JavaScript `\w` is `[A-Za-z0-9_]` and `\s` is whitespace; both are
  ASCII-faithfully modelled below.
* JavaScript numbers in the scorers are modelled as rationals (`ℚ`); the
  decimal literals 0.7, 0.3, 0.5, 0.2, 0.35 become the exact rationals they
  denote.
* `String.prototype.localeCompare` (used only as a sort tie-break on
  catalog display names) is modelled as the lexicographic order on `String`.
* A parsed CSV row (a JavaScript object with string keys and string values)
  is an association list `List (String × String)` in key-insertion order;
  `Object.keys`/`Object.values` enumerate in that order.
* The dynamic-programming matrix of the Levenshtein implementations is
  embedded as the recurrence it tabulates (`levD`): the matrix entry
  `d[i][j]` of the source is exactly `levD a b i j`.
-/

/-- JS `\s` (ASCII part): space, tab, newline, carriage return, form feed,
vertical tab. -/
def isWsChar (c : Char) : Bool :=
  c = ' ' || c = '\t' || c = '\n' || c = '\r' || c = '\u000b' || c = '\u000c'

/-- JS `\w`: ASCII letters, digits, underscore. -/
def isWordChar (c : Char) : Bool :=
  c.isAlphanum || c = '_'

/-- `String.prototype.trim` on a character list. -/
def trimList (l : List Char) : List Char :=
  ((l.dropWhile isWsChar).reverse.dropWhile isWsChar).reverse

/-- `String.prototype.trim`. -/
def jsTrim (s : String) : String :=
  String.mk (trimList s.toList)

/-- `String.prototype.toLowerCase` (ASCII). -/
def jsToLower (s : String) : String :=
  String.mk (s.toList.map Char.toLower)

/-- Strip trailing whitespace only. -/
def stripTrailingWs (l : List Char) : List Char :=
  (l.reverse.dropWhile isWsChar).reverse

/-- Split into maximal whitespace-free words, dropping empty pieces
(the `replace(/\s+/g, " ").trim()` word structure of `toNorm`). -/
def wsWords (l : List Char) : List (List Char) :=
  go [] l
where
  go (cur : List Char) : List Char → List (List Char)
    | [] => if cur.isEmpty then [] else [cur.reverse]
    | c :: rest =>
      if isWsChar c then
        if cur.isEmpty then go [] rest else cur.reverse :: go [] rest
      else go (c :: cur) rest

/-- `toNorm` of part_002 lines 22–28: lowercase, NFKD (identity on ASCII),
replace every non-`\w`-non-`\s` character by a space, collapse whitespace
runs to single spaces, trim. -/
def toNorm (s : String) : String :=
  let lowered := s.toList.map Char.toLower
  let spaced := lowered.map (fun c => if isWordChar c || isWsChar c then c else ' ')
  String.mk (List.intercalate [' '] (wsWords spaced))

/-- `needle` occurs contiguously in `hay` (JS `String.prototype.includes`). -/
def listContains (hay needle : List Char) : Bool :=
  match hay with
  | [] => needle.isEmpty
  | _ :: t => needle.isPrefixOf hay || listContains t needle

/-- JS `String.prototype.includes`. -/
def strContains (hay needle : String) : Bool :=
  listContains hay.toList needle.toList

/-- Leftmost match position of the regex `/\s*\([^)]*\)\s*$/` used by
`getBase`: given the string with trailing whitespace and the final `)`
already peeled off, return the part before the first `(` that has no `)`
after it, or `none` when no such `(` exists. -/
def findSplit : List Char → Option (List Char)
  | [] => none
  | c :: rest =>
    if c = '(' && rest.all (· ≠ ')') then some []
    else (findSplit rest).map (c :: ·)

/-- `getBase` of part_002 lines 83–86 (identical in part_003 lines 126–129 and
to `getBaseCardName` of App.jsx/part_000/part_001 up to the guard): strip a
trailing parenthesized group via `replace(/\s*\([^)]*\)\s*$/, "")`, then
`trim()`; empty input short-circuits to `""`. -/
def getBase (name : String) : String :=
  if name = "" then ""
  else
    let t := stripTrailingWs name.toList
    match t.getLast? with
    | some ')' =>
      match findSplit t.dropLast with
      | some pre => String.mk (trimList pre)
      | none => String.mk (trimList name.toList)
    | _ => String.mk (trimList name.toList)

/-- Leftmost match of `/\(([^)+]+)\)\s*$/`'s group for `getVariant`: the part
after the first `(` whose tail (before the final `)`) is nonempty and
`)`-free. -/
def findSplitV : List Char → Option (List Char)
  | [] => none
  | c :: rest =>
    if c = '(' && !rest.isEmpty && rest.all (· ≠ ')') then some rest
    else findSplitV rest

/-- `getVariant` of part_002 lines 89–93: the contents of a trailing
parenthesized group, matched by `/\(([^)]+)\)\s*$/`, trimmed; `""` when the
pattern does not match or the input is empty. -/
def getVariant (name : String) : String :=
  if name = "" then ""
  else
    let t := stripTrailingWs name.toList
    match t.getLast? with
    | some ')' =>
      match findSplitV t.dropLast with
      | some mid => String.mk (trimList mid)
      | none => ""
    | _ => ""

/-- `\b` after a match: end of string or a non-word character. -/
def wordBoundary : List Char → Bool
  | [] => true
  | d :: _ => !isWordChar d

/-- Fuel-indexed scanner for `replaceWordCI` (structural recursion on the
fuel; every step consumes at least one character, so fuel equal to the input
length never runs out). -/
def replaceWordCIF (p0 : Char) (pr : List Char) (rep : List Char) :
    Nat → Bool → List Char → List Char
  | 0, _, l => l
  | _ + 1, _, [] => []
  | fuel + 1, prevWord, c :: rest =>
    if !prevWord && ((c :: rest).take (pr.length + 1)).map Char.toLower = p0 :: pr
        && wordBoundary (rest.drop pr.length) then
      rep ++ replaceWordCIF p0 pr rep fuel true (rest.drop pr.length)
    else
      c :: replaceWordCIF p0 pr rep fuel (isWordChar c) rest

/-- One pass of `String.prototype.replace(/\bpat\b/gi, rep)` for a pattern
`p0 :: pr` consisting of word characters, given in lowercase.  `prevWord`
tracks whether the previous character of the original string is a word
character (for the leading `\b`); scanning resumes after each match, on the
original string, as the `g` flag does. -/
def replaceWordCI (p0 : Char) (pr : List Char) (rep : List Char)
    (prevWord : Bool) (l : List Char) : List Char :=
  replaceWordCIF p0 pr rep l.length prevWord l

/-- Apply one brand-spelling replacement (`s.replace(/\bPat\b/gi, rep)`). -/
def stepWord (s : List Char) (pat rep : String) : List Char :=
  match pat.toList with
  | [] => s
  | p0 :: pr => replaceWordCI p0 pr rep.toList false s

/-- `brandCanonicalize` of part_002 lines 96–107: eight sequential
case-insensitive whole-word respellings of brand abbreviations. -/
def brandCanonicalize (text : String) : String :=
  let s0 := text.toList
  let s1 := stepWord s0 "makemytrip" "MakeMyTrip"
  let s2 := stepWord s1 "icici" "ICICI"
  let s3 := stepWord s2 "hdfc" "HDFC"
  let s4 := stepWord s3 "sbi" "SBI"
  let s5 := stepWord s4 "idfc" "IDFC"
  let s6 := stepWord s5 "pnb" "PNB"
  let s7 := stepWord s6 "rbl" "RBL"
  let s8 := stepWord s7 "yes" "YES"
  String.mk s8

/-- Separator characters of `splitList`'s regex
`/,|\/|;|\||\n|\r|\t|\band\b|\bAND\b|•/`. -/
def isSepChar (c : Char) : Bool :=
  c = ',' || c = '/' || c = ';' || c = '|' || c = '\n' || c = '\r' || c = '\t' || c = '•'

/-- The word-boundary alternatives `\band\b|\bAND\b` (case-sensitive, as in
the source regex, which carries no `i` flag) match at the current position. -/
def matchesAnd (prevWord : Bool) (l : List Char) : Bool :=
  !prevWord && (l.take 3 = ['a', 'n', 'd'] || l.take 3 = ['A', 'N', 'D']) &&
    (match l.drop 3 with
     | [] => true
     | d :: _ => !isWordChar d)

/-- Fuel-indexed scanner for `splitList`: cut the character stream at
separator characters and at word-boundary `and`/`AND`. `cur` is the current
piece, reversed.  Every step consumes at least one character, so fuel equal
to the input length never runs out. -/
def splitListAuxF : Nat → Bool → List Char → List Char → List (List Char)
  | 0, _, cur, _ => [cur.reverse]
  | _ + 1, _, cur, [] => [cur.reverse]
  | fuel + 1, prevWord, cur, c :: rest =>
    if isSepChar c then cur.reverse :: splitListAuxF fuel false [] rest
    else if matchesAnd prevWord (c :: rest) then
      cur.reverse :: splitListAuxF fuel true [] (rest.drop 2)
    else splitListAuxF fuel (isWordChar c) (c :: cur) rest

/-- Scanner for `splitList` at adequate fuel. -/
def splitListAux (prevWord : Bool) (cur : List Char) (l : List Char) :
    List (List Char) :=
  splitListAuxF l.length prevWord cur l

/-- `splitList` of part_002 lines 74–80: split a cell across the separators,
trim every piece, drop empty pieces; falsy input gives `[]`. -/
def splitList (val : String) : List String :=
  if val = "" then []
  else
    ((splitListAux false [] val.toList).map (fun t => String.mk (trimList t))).filter
      (· ≠ "")

/-- JS `split(/\s+/)` scanner, fuel-indexed (fuel equal to the input length
never runs out): pieces between whitespace runs.  A leading run yields a
leading `""`, a trailing run a trailing `""`, and `"".split(/\s+/)` is
`[""]`. -/
def jsSplitWsAuxF : Nat → List Char → List Char → List (List Char)
  | 0, cur, _ => [cur.reverse]
  | _ + 1, cur, [] => [cur.reverse]
  | fuel + 1, cur, c :: rest =>
    if isWsChar c then cur.reverse :: jsSplitWsAuxF fuel [] (rest.dropWhile isWsChar)
    else jsSplitWsAuxF fuel (c :: cur) rest

/-- JS `String.prototype.split(/\s+/)`. -/
def jsSplitWs (s : String) : List String :=
  (jsSplitWsAuxF s.toList.length [] s.toList).map String.mk

/-- One row of the Levenshtein DP matrix: given row `i` as the function
`prev`, `levRow a b prev i j` is the entry `d[i+1][j]` — `i+1` for `j = 0`,
and otherwise the minimum of delete/insert/substitute, with the substitution
cost comparing `a[i]` against `b[j-1]` (the source's `a[i-1]`/`b[j-1]` in
1-based matrix coordinates). -/
def levRow (a b : List Char) (prev : Nat → Nat) (i : Nat) : Nat → Nat
  | 0 => i + 1
  | j + 1 =>
    let cost := if a.getD i ' ' = b.getD j ' ' then 0 else 1
    min (prev (j + 1) + 1) (min (levRow a b prev i j + 1) (prev j + cost))

/-- The Levenshtein recurrence tabulated by the DP matrices of `lev`
(part_002 lines 110–131) and `levenshteinDistance` (part_001 lines 28–51,
App.jsx 29–52, part_000 30–54): `levD a b i j` is the matrix entry `d[i][j]`
for the first `i` characters of `a` against the first `j` characters of
`b`, with unit insert/delete/substitute costs, built row by row exactly as
the source fills the matrix. -/
def levD (a b : List Char) : Nat → Nat → Nat
  | 0 => fun j => j
  | i + 1 => levRow a b (levD a b i) i

theorem levD_succ_succ (a b : List Char) (i j : Nat) :
    levD a b (i + 1) (j + 1) =
      min (levD a b i (j + 1) + 1)
        (min (levD a b (i + 1) j + 1)
          (levD a b i j + if a.getD i ' ' = b.getD j ' ' then 0 else 1)) := rfl

/-- `lev` of part_002 lines 110–131: both inputs are passed through `toNorm`
first; the early returns for an empty side coincide with the recurrence's
base cases. -/
def lev (a b : String) : Nat :=
  let an := (toNorm a).toList
  let bn := (toNorm b).toList
  levD an bn an.length bn.length

/-- `levenshteinDistance` of part_001 lines 28–51 / App.jsx lines 29–52: raw
inputs, matrix indexed `matrix[i][j]` with `i` over `b` and `j` over `a`,
cost comparing `b.charAt(i-1)` with `a.charAt(j-1)`, result
`matrix[b.length][a.length]`. -/
def levenshteinDistance (a b : String) : Nat :=
  levD b.toList a.toList b.toList.length a.toList.length

/-- `levenshteinDistance` of part_000 lines 30–54: same matrix, but guarded by
`if (!a || !b) return 100`, so any empty argument yields 100. -/
def levenshteinDistance000 (a b : String) : Nat :=
  if a = "" || b = "" then 100
  else levD b.toList a.toList b.toList.length a.toList.length

/-- JS `split(" ")` scanner: cut exactly at each single space character. -/
def splitSpaceAux (cur : List Char) : List Char → List (List Char)
  | [] => [cur.reverse]
  | c :: rest =>
    if c = ' ' then cur.reverse :: splitSpaceAux [] rest
    else splitSpaceAux (c :: cur) rest

/-- JS `String.prototype.split(" ")`. -/
def splitSpace (s : String) : List String :=
  (splitSpaceAux [] s.toList).map String.mk

/-- `scoreCandidate` of part_002 lines 133–147.  Note the containment branch
returns 100 for *any* containment of the normalized query in the normalized
candidate, equality included; there is no 90 branch.  Numbers are rationals
(0.7 = 7/10, 0.3 = 3/10). -/
def scoreCandidate (q cand : String) : ℚ :=
  let qs := toNorm q
  let cs := toNorm cand
  if qs = "" then 0
  else if strContains cs qs then 100
  else
    let qWords := (splitSpace qs).filter (· ≠ "")
    let cWords := (splitSpace cs).filter (· ≠ "")
    let matchingWords :=
      (qWords.filter (fun qw => cWords.any (fun cw => strContains cw qw))).length
    let sim : ℚ := 1 - (lev qs cs : ℚ) / ((max qs.length cs.length : ℕ) : ℚ)
    (matchingWords : ℚ) / ((max 1 qWords.length : ℕ) : ℚ) * (7 / 10) + sim * (3 / 10)

/-- `getMatchScore` of part_001 lines 53–86 (identical in App.jsx lines
55–95): falsy guard, trim+lowercase, exact-equality branch 100, containment
branch 90, then the 0.5/0.3/0.2 blend times 100. -/
def getMatchScore (query card : String) : ℚ :=
  if query = "" || card = "" then 0
  else
    let q := jsToLower (jsTrim query)
    let c := jsToLower (jsTrim card)
    if c = q then 100
    else if strContains c q then 90
    else
      let qWords := jsSplitWs q
      let cWords := jsSplitWs c
      let wordMatches :=
        (qWords.filter (fun qw => cWords.any (fun cw => strContains cw qw))).length
      let fuzzyWordMatches :=
        (qWords.filter (fun qw => cWords.any (fun cw =>
          decide (levenshteinDistance qw cw ≤ 2) &&
            decide ((levenshteinDistance qw cw : ℚ) /
              ((max qw.length cw.length : ℕ) : ℚ) < 35 / 100)))).length
      let distance := levenshteinDistance q c
      let maxLen : ℕ := max q.length c.length
      let similarity : ℚ := 1 - (distance : ℚ) / (maxLen : ℚ)
      ((wordMatches : ℚ) / (qWords.length : ℚ) * (1 / 2) +
        (fuzzyWordMatches : ℚ) / (qWords.length : ℚ) * (3 / 10) +
        similarity * (1 / 5)) * 100

/-- A parsed CSV row: a JavaScript object as an association list in key
order. -/
abbrev Row := List (String × String)

/-- `obj[k]` (first binding wins, and `hasOwnProperty` is key membership). -/
def rowGet (o : Row) (k : String) : Option String :=
  (o.find? (fun p => p.1 == k)).map (·.2)

/-- `firstField` of part_002 lines 30–43: first alias key whose value is
present and nonempty after trimming. -/
def firstField (o : Row) (keys : List String) : Option String :=
  match keys with
  | [] => none
  | k :: rest =>
    match rowGet o k with
    | some v => if jsTrim v ≠ "" then some v else firstField o rest
    | none => firstField o rest

/-- `firstFieldByContains` of part_002 lines 46–56: first key containing the
target substring case-insensitively, with a nonempty (after trim) value. -/
def firstFieldByContains (o : Row) (sub : String) : Option String :=
  (o.find? (fun p =>
    strContains (jsToLower p.1) (jsToLower sub) && jsTrim p.2 != "")).map (·.2)

def LIST_FIELDS_credit : List String := ["Eligible Credit Cards", "Eligible Cards"]

def LIST_FIELDS_debit : List String := ["Eligible Debit Cards", "Applicable Debit Cards"]

def LIST_FIELDS_title : List String := ["Offer Title", "Title"]

def LIST_FIELDS_image : List String :=
  ["Image", "Credit Card Image", "Offer Image", "image", "Image URL"]

def LIST_FIELDS_link : List String := ["Link", "Offer Link"]

def LIST_FIELDS_desc : List String :=
  ["Description", "Details", "Offer Description", "Flight Benefit"]

/-- `normalizeUrl` of part_002 lines 155–161: trim, lowercase, strip one
leading `http://`/`https://`, strip one leading `www.`, strip one trailing
slash. -/
def normalizeUrl (u : String) : String :=
  if u = "" then ""
  else
    let s0 := (jsTrim u).toList.map Char.toLower
    let s1 :=
      if ("http://".toList).isPrefixOf s0 then s0.drop 7
      else if ("https://".toList).isPrefixOf s0 then s0.drop 8
      else s0
    let s2 := if ("www.".toList).isPrefixOf s1 then s1.drop 4 else s1
    let s3 := if s2.getLast? = some '/' then s2.dropLast else s2
    String.mk s3

/-- `normalizeText` of part_002 lines 162–164. -/
def normalizeText (s : String) : String := toNorm s

/-- `offerKey` of part_002 lines 165–175: the content fingerprint
`title || desc || image || link` over normalized text and URLs.  Note the
coupon-code column is never consulted. -/
def offerKey (offer : Row) : String :=
  let imgGuess :=
    match firstField offer LIST_FIELDS_image with
    | some v => some v
    | none => firstFieldByContains offer "image"
  let image := normalizeUrl (imgGuess.getD "")
  let t0 :=
    match firstField offer LIST_FIELDS_title with
    | some v => v
    | none => (rowGet offer "Website").getD ""
  let title := normalizeText t0
  let desc := normalizeText ((firstField offer LIST_FIELDS_desc).getD "")
  let link := normalizeUrl ((firstField offer LIST_FIELDS_link).getD "")
  title ++ "||" ++ desc ++ "||" ++ image ++ "||" ++ link

/-- A matched offer wrapper `{offer, site, variantText}`. -/
structure Wrapper where
  offer : Row
  site : String
  variantText : String
deriving DecidableEq

/-- `dedupWrappers` of part_002 lines 177–186: keep a wrapper iff its offer's
fingerprint is not in `seen`, adding each kept fingerprint; the `seen` set is
threaded through (the caller shares one set across provider lists). -/
def dedupWrappers : List Wrapper → List String → List Wrapper × List String
  | [], seen => ([], seen)
  | w :: rest, seen =>
    let k := offerKey w.offer
    if k ∈ seen then dedupWrappers rest seen
    else
      let r := dedupWrappers rest (k :: seen)
      (w :: r.1, r.2)

/-- A dropdown catalog entry `{type, display, baseNorm}`. -/
structure Entry where
  type : String
  display : String
  baseNorm : String
deriving DecidableEq

/-- `makeEntry` of part_002 lines 150–153. -/
def makeEntry (raw ty : String) : Entry :=
  let base := brandCanonicalize (getBase raw)
  ⟨ty, base, toNorm base⟩

/-- The selected entry constructed by `handleChipClick` (part_002 lines
480–487). -/
def handleChipClickSelected (name ty : String) : Entry :=
  let display := brandCanonicalize (getBase name)
  ⟨ty, display, toNorm display⟩

/-- Lexicographic (code-point) comparison of character lists, the model of
`String.prototype.localeCompare` as used by the sorts (`a.localeCompare(b)
≤ 0`). -/
def listLe : List Char → List Char → Bool
  | [], _ => true
  | _ :: _, [] => false
  | a :: as, b :: bs => if a < b then true else if a = b then listLe as bs else false

/-- `a.localeCompare(b) ≤ 0`, modelled lexicographically. -/
def strLe (a b : String) : Bool := listLe a.toList b.toList

/-- `strLe` as a relation, for the stable sorts (`Array.prototype.sort` is
stable per ES2019; insertion sort with this relation is its model). -/
def strRel (a b : String) : Prop := strLe a b = true

instance : DecidableRel strRel := fun a b => instDecidableEqBool (strLe a b) true

/-- `Map.set(k, map.get(k) || base)` of the catalog loaders: insert only when
the key is absent (present keys keep their first-seen value; `Map` preserves
insertion order). -/
def insertFirst (m : List (String × String)) (k v : String) : List (String × String) :=
  if m.any (fun p => p.1 == k) then m else m ++ [(k, v)]

/-- One token of a catalog cell (`loadAllCards`, part_002 lines 283–293):
derive the canonical base and its normal form, insert when nonempty. -/
def harvestToken (m : List (String × String)) (raw : String) : List (String × String) :=
  let base := brandCanonicalize (getBase raw)
  let baseNorm := toNorm base
  if baseNorm ≠ "" then insertFirst m baseNorm base else m

/-- The per-type `Map` built by `loadAllCards` (part_002 lines 278–294,
part_003 lines 354–393) over all rows for one alias list. -/
def buildTypeMap (rows : List Row) (keys : List String) : List (String × String) :=
  rows.foldl (fun m row => (splitList ((firstField row keys).getD "")).foldl harvestToken m) []

/-- `Array.from(map.values()).sort((a, b) => a.localeCompare(b)).map(d =>
makeEntry(d, ty))` of `loadAllCards` (part_002 lines 296–301). -/
def entriesOfMap (m : List (String × String)) (ty : String) : List Entry :=
  ((m.map (·.2)).insertionSort strRel).map (fun d => makeEntry d ty)

/-- Credit entries produced by `loadAllCards`. -/
def creditEntriesOf (rows : List Row) : List Entry :=
  entriesOfMap (buildTypeMap rows LIST_FIELDS_credit) "credit"

/-- Debit entries produced by `loadAllCards`. -/
def debitEntriesOf (rows : List Row) : List Entry :=
  entriesOfMap (buildTypeMap rows LIST_FIELDS_debit) "debit"

/-- Whole-word search: `\bpat\b` matches somewhere in `l` (callers lowercase
both sides for the `i` flag; patterns consist of word characters). -/
def hasWordIn (pat : List Char) : Bool → List Char → Bool
  | _, [] => false
  | prevWord, c :: rest =>
    (!prevWord && (c :: rest).take pat.length = pat &&
      (match (c :: rest).drop pat.length with
       | [] => true
       | d :: _ => !isWordChar d))
    || hasWordIn pat (isWordChar c) rest

/-- `/\bpat\b/i.test(s)` for a lowercase word-character pattern. -/
def hasWordCI (s : String) (pat : String) : Bool :=
  hasWordIn pat.toList false (s.toList.map Char.toLower)

/-- `/\bcard\s*type\b/.test(l)` on an already-lowercased character list. -/
def hasCardTypeIn : Bool → List Char → Bool
  | _, [] => false
  | prevWord, c :: rest =>
    (!prevWord && matchesCardType (c :: rest)) || hasCardTypeIn (isWordChar c) rest
where
  matchesCardType (l : List Char) : Bool :=
    ("card".toList).isPrefixOf l &&
      (let l2 := (l.drop 4).dropWhile isWsChar
       ("type".toList).isPrefixOf l2 &&
         (match l2.drop 4 with
          | [] => true
          | d :: _ => !isWordChar d))

/-- `getRowTypeHint` of part_002 lines 202–217: scan keys for a
type/category/segment header and classify by its value's `debit`/`credit`
keyword; keep scanning when the value matches neither. -/
def getRowTypeHint (row : Row) : String :=
  match row with
  | [] => ""
  | (k, v) :: rest =>
    let lk := k.toList.map Char.toLower
    if hasWordIn "type".toList false lk || hasCardTypeIn false lk
        || hasWordIn "category".toList false lk
        || hasWordIn "segment".toList false lk then
      let lv := v.toList.map Char.toLower
      if hasWordIn "debit".toList false lv then "debit"
      else if hasWordIn "credit".toList false lv then "credit"
      else getRowTypeHint rest
    else getRowTypeHint rest

/-- The applicable-instruments token list `matchesFor` resolves for one offer
row (part_002 lines 493–527): the debit branch tries explicit debit headers,
then a mixed `cards` header gated by the row type hint, then a whole-row
value scan for tokens containing the word `debit`; the credit branch chains
the credit alias fields. -/
def resolveListFor (ty : String) (o : Row) : List String :=
  if ty = "debit" then
    let dcExplicit :=
      match firstField o LIST_FIELDS_debit with
      | some v => some v
      | none =>
        match firstFieldByContains o "eligible debit" with
        | some v => some v
        | none => firstFieldByContains o "debit card"
    let dc0 := match dcExplicit with
      | some v => splitList v
      | none => []
    let dc1 :=
      if dc0.isEmpty then
        let typeHint := getRowTypeHint o
        let mixed :=
          match firstFieldByContains o "eligible cards" with
          | some v => some v
          | none => firstFieldByContains o "cards"
        match mixed with
        | some mv => if typeHint = "debit" then splitList mv else []
        | none => []
      else dc0
    if dc1.isEmpty then
      ((o.map (·.2)).flatMap splitList).filter (fun t => hasWordCI t "debit")
    else dc1
  else
    let cc :=
      match firstField o LIST_FIELDS_credit with
      | some v => some v
      | none =>
        match firstFieldByContains o "eligible credit" with
        | some v => some v
        | none =>
          match firstFieldByContains o "credit card" with
          | some v => some v
          | none => firstFieldByContains o "eligible cards"
    splitList (cc.getD "")

/-- The token loop of `matchesFor` (part_002 lines 529–539): stop at the
first token whose canonical base normalizes to the selected `baseNorm`; the
captured variant text is that token's `getVariant` (the loop `break`s, so
later matching tokens are never consulted). -/
def rowMatchLoop (sel : Entry) : List String → Option String
  | [] => none
  | raw :: rest =>
    if toNorm (brandCanonicalize (getBase raw)) = sel.baseNorm then some (getVariant raw)
    else rowMatchLoop sel rest

/-- `matchesFor` of part_002 lines 490–545: wrappers for the offer rows whose
resolved token list matches the selected entry. -/
def matchesFor (offers : List Row) (ty site : String) (sel : Option Entry) : List Wrapper :=
  match sel with
  | none => []
  | some s =>
    offers.filterMap (fun o =>
      (rowMatchLoop s (resolveListFor ty o)).map (fun v => ⟨o, site, v⟩))

/-- Modelled from the spec (claim C1's wording): "the match's variantText is
the first non-empty variant found among matching tokens, or empty if none."
Compared against the source's `rowMatchLoop` behaviour. -/
def specVariantText (sel : Entry) (L : List String) : String :=
  ((((L.filter (fun t => toNorm (brandCanonicalize (getBase t)) == sel.baseNorm)).map
    getVariant).filter (· ≠ ""))).headD ""

def MAX_SUGGESTIONS : Nat := 50

/-- The sort comparator of `onChangeQuery` (part_002 line 433):
`(b.s - a.s) || a.it.display.localeCompare(b.it.display)` — `a` sorts no
later than `b` when `a`'s score is higher, or the scores tie and `a`'s
display name is no greater.  The triple is `(entry, score, inc)`. -/
def suggestionLe (a b : Entry × ℚ × Bool) : Bool :=
  decide (b.2.1 < a.2.1) || (decide (a.2.1 = b.2.1) && strLe a.1.display b.1.display)

/-- `suggestionLe` as a relation for the stable sort. -/
def suggRel (a b : Entry × ℚ × Bool) : Prop := suggestionLe a b = true

instance : DecidableRel suggRel := fun a b => instDecidableEqBool (suggestionLe a b) true

/-- The `scored` pipeline of `onChangeQuery` (part_002 lines 425–435): score
and flag raw containment, keep entries with `inc || s > 0.3`, sort by the
comparator, truncate to `MAX_SUGGESTIONS`, project the entries back out. -/
def scoredPipeline (val : String) (arr : List Entry) : List Entry :=
  let q := jsToLower (jsTrim val)
  let scored := arr.map (fun it =>
    (it, scoreCandidate val it.display, strContains (jsToLower it.display) q))
  let filtered := scored.filter (fun x => x.2.2 || decide (x.2.1 > 3 / 10))
  let sorted := filtered.insertionSort suggRel
  (sorted.take MAX_SUGGESTIONS).map (·.1)

/-- `toNorm` applied to a possibly-`undefined` argument: `String(s || "")`. -/
def toNormJS (s : Option String) : String := toNorm (s.getD "")

/-- `getBase` on a possibly-`undefined` argument (`if (!name) return ""`). -/
def getBaseJS (s : Option String) : String :=
  match s with
  | none => ""
  | some v => getBase v

/-- `getVariant` on a possibly-`undefined` argument. -/
def getVariantJS (s : Option String) : String :=
  match s with
  | none => ""
  | some v => getVariant v

/-- Hypothesis shape for the `getBase`/`getVariant` characterization: every
`(` occurring in the prefix is followed by some `)` later in the prefix, so
the prefix cannot supply the `(` of a trailing parenthesized group. -/
def okPre : List Char → Bool
  | [] => true
  | c :: rest => okPre rest && ((c != '(') || rest.any (· = ')'))

/-- The stream of candidate displays fed into one per-type catalog map, in
traversal order: every token of every row's resolved cell, canonicalized,
keeping those with a nonempty normal form. -/
def tokenBases (rows : List Row) (keys : List String) : List String :=
  ((rows.flatMap (fun row => splitList ((firstField row keys).getD ""))).map
    (fun raw => brandCanonicalize (getBase raw))).filter (fun b => toNorm b ≠ "")

/-! ## Properties of the Levenshtein recurrence -/

theorem levD_zero_right (a b : List Char) (i : Nat) : levD a b i 0 = i := by
  cases i <;> rfl

theorem levD_diag (c : List Char) : ∀ i, levD c c i i = 0 := by
  intro i
  induction i with
  | zero => rfl
  | succ i ih =>
    rw [levD_succ_succ]
    simp [ih]

theorem levD_symm (a b : List Char) : ∀ i j, levD a b i j = levD b a j i := by
  intro i
  induction i with
  | zero =>
    intro j
    rw [levD_zero_right b a j]
    rfl
  | succ i ih =>
    intro j
    induction j with
    | zero =>
      rw [levD_zero_right a b (i + 1)]
      rfl
    | succ j ihj =>
      rw [levD_succ_succ, levD_succ_succ, ← ihj, ← ih (j + 1), ← ih j]
      have hc : (if b.getD j ' ' = a.getD i ' ' then 0 else 1) =
          (if a.getD i ' ' = b.getD j ' ' then 0 else 1) := by
        rcases eq_or_ne (a.getD i ' ') (b.getD j ' ') with h | h
        · rw [if_pos h, if_pos h.symm]
        · rw [if_neg h, if_neg (fun h2 => h h2.symm)]
      rw [hc]
      omega

/-- C8: for all strings `a` and `b`, `lev a a = 0` and `lev a b = lev b a`
(part_002's `lev`, which normalizes internally before running the DP). -/
theorem claim8_lev_diag_symm :
    (∀ a : String, lev a a = 0) ∧ ∀ a b : String, lev a b = lev b a := by
  constructor
  · intro a
    unfold lev
    exact levD_diag _ _
  · intro a b
    unfold lev
    exact levD_symm _ _ _ _

/-- C7 (amended): `distance("", x)` depends on the implementation — part_002's
`lev` returns the length of the *normalized* form of `x`; the unguarded raw
implementation of part_001/App.jsx returns `length x`; part_000's guarded
variant returns 100 whenever either argument is empty. -/
theorem claim7_amended :
    (∀ x : String, lev "" x = (toNorm x).length)
  ∧ (∀ x : String, levenshteinDistance "" x = x.length)
  ∧ (∀ x : String, levenshteinDistance000 "" x = 100) := by
  refine ⟨fun x => rfl, fun x => ?_, fun x => rfl⟩
  show levD x.toList [] x.toList.length 0 = x.length
  rw [levD_zero_right]
  rfl

/-- C7 (counterexample): the claim as stated — `distance("", x) = length x` for
every string `x` — fails on part_002's `lev`, which normalizes first:
`lev "" "A!" = 1` while `"A!"` has length 2. -/
theorem claim7_counterexample : lev "" "A!" ≠ "A!".length := by decide

/-- C9: on empty or `undefined` input, `toNorm`, `getBase` and `getVariant`
(part_002 lines 22–28, 83–86, 89–93) each return the empty string; as total
Lean functions they cannot throw. -/
theorem claim9_empty_inputs :
    toNormJS none = "" ∧ toNormJS (some "") = ""
  ∧ getBaseJS none = "" ∧ getBaseJS (some "") = ""
  ∧ getVariantJS none = "" ∧ getVariantJS (some "") = "" := by
  decide

/-- C10: every catalog/dropdown entry and selected instrument the program
constructs satisfies `baseNorm = toNorm display`: `makeEntry` (part_002 lines
150–153), the chip-click selection (lines 480–487), and every entry built by
`loadAllCards` (lines 296–304) establish the equation. -/
theorem claim10_baseNorm_invariant :
    (∀ raw ty, (makeEntry raw ty).baseNorm = toNorm (makeEntry raw ty).display)
  ∧ (∀ name ty,
      (handleChipClickSelected name ty).baseNorm =
        toNorm (handleChipClickSelected name ty).display)
  ∧ (∀ rows, ∀ e ∈ creditEntriesOf rows ++ debitEntriesOf rows,
      e.baseNorm = toNorm e.display) := by
  refine ⟨fun raw ty => rfl, fun name ty => rfl, fun rows e he => ?_⟩
  rcases List.mem_append.mp he with h | h <;>
  · rcases List.mem_map.mp h with ⟨d, _, rfl⟩
    rfl

/-- C10 witness: the invariant instantiated on a concrete catalog. -/
theorem claim10_witness :
    (makeEntry "HDFC Regalia (Visa)" "credit").baseNorm =
      toNorm (makeEntry "HDFC Regalia (Visa)" "credit").display := by
  exact claim10_baseNorm_invariant.2.2 [[("Eligible Credit Cards", "HDFC Regalia (Visa)")]]
    (makeEntry "HDFC Regalia (Visa)" "credit") (by decide)

/-! ## Base/variant extraction (claim C6) -/

theorem all_ne_rparen_false (p tail : List Char) (hx : ')' ∈ p) :
    ((p ++ tail).all (· ≠ ')')) = false := by
  simp only [List.all_eq_false]
  exact ⟨')', List.mem_append_left _ hx, by simp⟩

theorem not_rparen_mem_of_all (mid : List Char)
    (hmid : mid.all (· ≠ ')') = true) : ')' ∉ mid := by
  intro hx
  have := List.all_eq_true.mp hmid ')' hx
  simp at this

theorem findSplit_append (mid : List Char) (hmid : mid.all (· ≠ ')') = true) :
    ∀ pre : List Char, okPre pre = true →
      findSplit (pre ++ '(' :: mid) = some pre := by
  intro pre
  induction pre with
  | nil =>
    intro _
    simp [findSplit, not_rparen_mem_of_all mid hmid]
  | cons c p ih =>
    intro h
    rw [okPre] at h
    simp only [Bool.and_eq_true, Bool.or_eq_true, bne_iff_ne, ne_eq,
      List.any_eq_true, decide_eq_true_eq, exists_eq_right] at h
    obtain ⟨hp, hc⟩ := h
    have hcond : (c = '(' && (p ++ '(' :: mid).all (· ≠ ')')) = false := by
      rcases hc with hc | hmem
      · simp [hc]
      · rw [all_ne_rparen_false p _ hmem]
        simp
    rw [List.cons_append, findSplit, hcond]
    simp [ih hp]

theorem findSplitV_append (mid : List Char) (hmid : mid.all (· ≠ ')') = true)
    (hne : mid ≠ []) :
    ∀ pre : List Char, okPre pre = true →
      findSplitV (pre ++ '(' :: mid) = some mid := by
  intro pre
  induction pre with
  | nil =>
    intro _
    simp [findSplitV, not_rparen_mem_of_all mid hmid, hne]
  | cons c p ih =>
    intro h
    rw [okPre] at h
    simp only [Bool.and_eq_true, Bool.or_eq_true, bne_iff_ne, ne_eq,
      List.any_eq_true, decide_eq_true_eq, exists_eq_right] at h
    obtain ⟨hp, hc⟩ := h
    have hcond : (c = '(' && !(p ++ '(' :: mid).isEmpty
        && (p ++ '(' :: mid).all (· ≠ ')')) = false := by
      rcases hc with hc | hmem
      · simp [hc]
      · rw [all_ne_rparen_false p _ hmem]
        simp
    rw [List.cons_append, findSplitV, hcond]
    exact ih hp

theorem findSplitV_open_end :
    ∀ pre : List Char, okPre pre = true → findSplitV (pre ++ ['(']) = none := by
  intro pre
  induction pre with
  | nil =>
    intro _
    rfl
  | cons c p ih =>
    intro h
    rw [okPre] at h
    simp only [Bool.and_eq_true, Bool.or_eq_true, bne_iff_ne, ne_eq,
      List.any_eq_true, decide_eq_true_eq, exists_eq_right] at h
    obtain ⟨hp, hc⟩ := h
    have hcond : (c = '(' && !(p ++ ['(']).isEmpty
        && (p ++ ['(']).all (· ≠ ')')) = false := by
      rcases hc with hc | hmem
      · simp [hc]
      · rw [all_ne_rparen_false p _ hmem]
        simp
    rw [List.cons_append, findSplitV, hcond]
    exact ih hp

theorem stripTrailingWs_body_ws (body ws : List Char) (hws : ws.all isWsChar = true)
    (hbody : body.getLast? = some ')') :
    stripTrailingWs (body ++ ws) = body := by
  unfold stripTrailingWs
  rw [List.reverse_append, List.dropWhile_append]
  have h1 : ws.reverse.dropWhile isWsChar = [] := by
    rw [List.dropWhile_eq_nil_iff]
    intro x hx
    exact List.all_eq_true.mp hws x (List.mem_reverse.mp hx)
  rw [h1]
  simp only [List.isEmpty_nil, if_true]
  rcases body.eq_nil_or_concat with rfl | ⟨ys, a, rfl⟩
  · simp at hbody
  · rw [List.concat_eq_append] at hbody ⊢
    rw [List.getLast?_concat] at hbody
    obtain rfl : a = ')' := by injection hbody
    rw [List.reverse_append]
    simp [List.dropWhile, isWsChar]

/-- C6 (amended): for a string consisting of a prefix, a trailing
parenthesized group and trailing whitespace — with the group's contents free
of `)` and every `(` of the prefix already closed within the prefix —
`getBase` removes the group and *trims* the remainder, and `getVariant`
returns the group's contents trimmed (empty contents give `""`).  A string
whose last non-whitespace character is not `)` has no trailing group:
`getBase` returns it *trimmed* (not unchanged) and `getVariant` returns
`""`. -/
theorem claim6_amended :
    (∀ pre mid ws : List Char,
        okPre pre = true → mid.all (· ≠ ')') = true → ws.all isWsChar = true →
        getBase (String.mk (pre ++ '(' :: (mid ++ ')' :: ws))) = String.mk (trimList pre)
        ∧ getVariant (String.mk (pre ++ '(' :: (mid ++ ')' :: ws))) =
            (if mid = [] then "" else String.mk (trimList mid)))
  ∧ (∀ s : String, (stripTrailingWs s.toList).getLast? ≠ some ')' →
      getBase s = jsTrim s ∧ getVariant s = "") := by
  constructor
  · intro pre mid ws hpre hmid hws
    have hassoc : pre ++ '(' :: (mid ++ ')' :: ws) = ((pre ++ '(' :: mid) ++ [')']) ++ ws := by
      simp
    have hne : String.mk (pre ++ '(' :: (mid ++ ')' :: ws)) ≠ "" := by
      intro h
      have h2 : pre ++ '(' :: (mid ++ ')' :: ws) = ([] : List Char) :=
        congrArg String.toList h
      simp at h2
    have hstrip : stripTrailingWs (pre ++ '(' :: (mid ++ ')' :: ws)) =
        (pre ++ '(' :: mid) ++ [')'] := by
      rw [hassoc]
      exact stripTrailingWs_body_ws _ _ hws (List.getLast?_concat _)
    have htl : (String.mk (pre ++ '(' :: (mid ++ ')' :: ws))).toList =
        pre ++ '(' :: (mid ++ ')' :: ws) := rfl
    constructor
    · simp only [getBase, if_neg hne, htl, hstrip, List.getLast?_concat,
        List.dropLast_concat, findSplit_append mid hmid pre hpre]
    · rcases List.eq_nil_or_concat mid with rfl | ⟨ys, a, hmid2⟩
      · simp only [getVariant, if_neg hne, htl, hstrip, List.getLast?_concat,
          List.dropLast_concat, List.append_nil, findSplitV_open_end pre hpre]
        simp
      · have hmidne : mid ≠ [] := by
          rw [hmid2]
          simp
        simp only [getVariant, if_neg hne, htl, hstrip, List.getLast?_concat,
          List.dropLast_concat, findSplitV_append mid hmid hmidne pre hpre]
        simp [hmidne]
  · intro s hlast
    by_cases hs : s = ""
    · subst hs
      exact ⟨rfl, rfl⟩
    · constructor
      · simp only [getBase, if_neg hs]
        rfl
      · simp only [getVariant, if_neg hs]

/-- C6 (counterexample): the claim states that a string with no trailing
parenthesized suffix is returned *unchanged* by `getBase`; but `getBase`
always trims: `getBase " A " = "A" ≠ " A "`. -/
theorem claim6_counterexample : getBase " A " = "A" ∧ "A" ≠ " A " := by decide

/-- C6 witness: the amended characterization applied to the spec's own
examples. -/
theorem claim6_witness :
    getBase "HDFC Regalia (Visa Signature)" = "HDFC Regalia"
  ∧ getVariant "HDFC Regalia (Visa Signature)" = "Visa Signature"
  ∧ getBase "HDFC Regalia" = "HDFC Regalia" ∧ getVariant "HDFC Regalia" = "" := by
  have h1 := claim6_amended.1 "HDFC Regalia ".toList "Visa Signature".toList []
    (by decide) (by decide) (by decide)
  have h2 := claim6_amended.2 "HDFC Regalia" (by decide)
  refine ⟨?_, ?_, ?_, ?_⟩
  · have := h1.1
    rwa [show String.mk ("HDFC Regalia ".toList ++ '(' :: ("Visa Signature".toList ++ ')' :: [])) =
      "HDFC Regalia (Visa Signature)" from rfl,
      show String.mk (trimList "HDFC Regalia ".toList) = "HDFC Regalia" from rfl] at this
  · have := h1.2
    rwa [show String.mk ("HDFC Regalia ".toList ++ '(' :: ("Visa Signature".toList ++ ')' :: [])) =
      "HDFC Regalia (Visa Signature)" from rfl,
      if_neg (by decide : ¬("Visa Signature".toList = [])),
      show String.mk (trimList "Visa Signature".toList) = "Visa Signature" from rfl] at this
  · have := h2.1
    rwa [show jsTrim "HDFC Regalia" = "HDFC Regalia" from rfl] at this
  · exact h2.2

/-! ## Match scorers (claim C3) -/

theorem isPrefixOf_self (l : List Char) : l.isPrefixOf l = true := by
  induction l with
  | nil => rfl
  | cons a as ih => simp [List.isPrefixOf, ih]

theorem strContains_self (s : String) : strContains s s = true := by
  unfold strContains
  cases h : s.toList with
  | nil => rfl
  | cons c t =>
    rw [listContains]
    simp [isPrefixOf_self]

theorem scoreCandidate_of_empty (q c : String) (hq : toNorm q = "") :
    scoreCandidate q c = 0 := by
  simp [scoreCandidate, hq]

theorem scoreCandidate_of_contains (q c : String) (hq : toNorm q ≠ "")
    (hc : strContains (toNorm c) (toNorm q) = true) :
    scoreCandidate q c = 100 := by
  simp [scoreCandidate, hq, hc]

theorem blend_le_one (mw n : ℕ) (hmw : mw ≤ n) (d : ℚ) (hd : 0 ≤ d) :
    (mw : ℚ) / ((max 1 n : ℕ) : ℚ) * (7 / 10) + (1 - d) * (3 / 10) ≤ 1 := by
  have hden : (1 : ℚ) ≤ ((max 1 n : ℕ) : ℚ) := by exact_mod_cast Nat.le_max_left 1 n
  have hx : (mw : ℚ) / ((max 1 n : ℕ) : ℚ) ≤ 1 := by
    rw [div_le_one (by linarith)]
    calc (mw : ℚ) ≤ (n : ℚ) := by exact_mod_cast hmw
      _ ≤ ((max 1 n : ℕ) : ℚ) := by exact_mod_cast Nat.le_max_right 1 n
  linarith

theorem scoreCandidate_blend_le_one (q c : String) (hq : toNorm q ≠ "")
    (hc : strContains (toNorm c) (toNorm q) = false) :
    scoreCandidate q c ≤ 1 := by
  simp only [scoreCandidate, if_neg hq, hc, Bool.false_eq_true, if_false]
  exact blend_le_one _ _ (List.length_filter_le _ _) _
    (div_nonneg (by positivity) (by positivity))

/-- C3 (amended): the two scorers diverge from the claimed 100/90 contract in
different ways.  part_002's `scoreCandidate` returns 100 exactly when the
normalized query is nonempty and the normalized candidate *contains* it
(equality included — proper containment also gets 100, and 90 is never
returned: every score is 100 or at most 1).  part_001/App.jsx's
`getMatchScore` returns 100 on equality of the trimmed lowercased forms and
90 on containment without equality.  An identical pair with nonempty
normalized form attains the maximum 100, but only weakly: a non-identical
pair can also score 100. -/
theorem claim3_amended :
    (∀ q c : String, scoreCandidate q c = 100 ↔
        (toNorm q ≠ "" ∧ strContains (toNorm c) (toNorm q) = true))
  ∧ (∀ q c : String, scoreCandidate q c = 100 ∨ scoreCandidate q c ≤ 1)
  ∧ (∀ q c : String, q ≠ "" → c ≠ "" →
      jsToLower (jsTrim c) = jsToLower (jsTrim q) → getMatchScore q c = 100)
  ∧ (∀ q c : String, q ≠ "" → c ≠ "" →
      jsToLower (jsTrim c) ≠ jsToLower (jsTrim q) →
      strContains (jsToLower (jsTrim c)) (jsToLower (jsTrim q)) = true →
      getMatchScore q c = 90)
  ∧ (∀ q : String, toNorm q ≠ "" → scoreCandidate q q = 100) := by
  refine ⟨?_, ?_, ?_, ?_, ?_⟩
  · intro q c
    constructor
    · intro h
      by_cases hq : toNorm q = ""
      · rw [scoreCandidate_of_empty q c hq] at h
        norm_num at h
      · refine ⟨hq, ?_⟩
        by_cases hc : strContains (toNorm c) (toNorm q) = true
        · exact hc
        · have hle := scoreCandidate_blend_le_one q c hq (by
            rcases Bool.eq_false_or_eq_true (strContains (toNorm c) (toNorm q)) with h0 | h0
            · exact absurd h0 hc
            · exact h0)
          rw [h] at hle
          norm_num at hle
    · rintro ⟨hq, hc⟩
      exact scoreCandidate_of_contains q c hq hc
  · intro q c
    by_cases hq : toNorm q = ""
    · right
      rw [scoreCandidate_of_empty q c hq]
      norm_num
    · rcases Bool.eq_false_or_eq_true (strContains (toNorm c) (toNorm q)) with h0 | h0
      · left
        exact scoreCandidate_of_contains q c hq h0
      · right
        exact scoreCandidate_blend_le_one q c hq h0
  · intro q c hq hc hEq
    simp [getMatchScore, hq, hc, hEq]
  · intro q c hq hc hne hcont
    simp [getMatchScore, hq, hc, hne, hcont]
  · intro q hq
    exact scoreCandidate_of_contains q q hq (strContains_self _)

/-- C3 (counterexample): the claim requires 90 — never 100 — when the
normalized candidate properly contains the normalized query, and 100 only on
equality; but `scoreCandidate "hdfc" "hdfc bank" = 100` although the
normalized forms differ. -/
theorem claim3_counterexample :
    scoreCandidate "hdfc" "hdfc bank" = 100 ∧ toNorm "hdfc bank" ≠ toNorm "hdfc" := by
  decide

/-- C3 witness: the amended branch facts at concrete inputs. -/
theorem claim3_witness :
    getMatchScore "HDFC Regalia" "  hdfc regalia  " = 100
  ∧ getMatchScore "hdfc" "hdfc bank" = 90
  ∧ scoreCandidate "reward" "reward" = 100 := by
  refine ⟨?_, ?_, ?_⟩
  · exact claim3_amended.2.2.1 "HDFC Regalia" "  hdfc regalia  " (by decide) (by decide)
      (by decide)
  · exact claim3_amended.2.2.2.1 "hdfc" "hdfc bank" (by decide) (by decide) (by decide)
      (by decide)
  · exact claim3_amended.2.2.2.2 "reward" (by decide)

/-! ## Catalog building (claim C5) -/

theorem foldl_tokens_flat (keys : List String) :
    ∀ (rows : List Row) (m : List (String × String)),
      rows.foldl (fun m row =>
          (splitList ((firstField row keys).getD "")).foldl harvestToken m) m
        = (rows.flatMap (fun row =>
            splitList ((firstField row keys).getD ""))).foldl harvestToken m := by
  intro rows
  induction rows with
  | nil => intro m; rfl
  | cons r rs ih =>
    intro m
    rw [List.foldl_cons, List.flatMap_cons, List.foldl_append]
    exact ih _

theorem buildTypeMap_eq_foldTokens (rows : List Row) (keys : List String) :
    buildTypeMap rows keys
      = (rows.flatMap (fun row =>
          splitList ((firstField row keys).getD ""))).foldl harvestToken [] :=
  foldl_tokens_flat keys rows []

theorem not_mem_keys_of_any_false (m : List (String × String)) (k : String)
    (hany : m.any (fun p => p.1 == k) = false) : k ∉ m.map (·.1) := by
  intro hk
  rcases List.mem_map.mp hk with ⟨p, hp, hpk⟩
  have := List.any_eq_false.mp hany p hp
  simp [hpk] at this

theorem keys_insertFirst_nodup (m : List (String × String)) (k v : String)
    (h : (m.map (·.1)).Nodup) : ((insertFirst m k v).map (·.1)).Nodup := by
  unfold insertFirst
  cases hany : m.any (fun p => p.1 == k) with
  | true => simpa [hany] using h
  | false =>
    simp only [hany, Bool.false_eq_true, if_false, List.map_append]
    rw [List.nodup_append]
    exact ⟨h, List.nodup_singleton _, by
      intro a ha hb
      simp only [List.map_cons, List.map_nil, List.mem_singleton] at hb
      subst hb
      exact not_mem_keys_of_any_false m a hany ha⟩

theorem keys_harvestToken_nodup (m : List (String × String)) (raw : String)
    (h : (m.map (·.1)).Nodup) : ((harvestToken m raw).map (·.1)).Nodup := by
  simp only [harvestToken]
  split
  · exact keys_insertFirst_nodup _ _ _ h
  · exact h

theorem keys_foldTokens_nodup :
    ∀ (ts : List String) (m : List (String × String)),
      (m.map (·.1)).Nodup → ((ts.foldl harvestToken m).map (·.1)).Nodup := by
  intro ts
  induction ts with
  | nil => exact fun m h => h
  | cons raw rest ih =>
    intro m h
    rw [List.foldl_cons]
    exact ih _ (keys_harvestToken_nodup m raw h)

theorem rowGet_isSome_of_any (m : List (String × String)) (k : String)
    (hany : m.any (fun p => p.1 == k) = true) : (rowGet m k).isSome := by
  unfold rowGet
  cases hf : m.find? (fun p => p.1 == k) with
  | some p => simp
  | none =>
    exfalso
    rcases List.any_eq_true.mp hany with ⟨p, hp, hpk⟩
    exact List.find?_eq_none.mp hf p hp hpk

theorem rowGet_insertFirst (m : List (String × String)) (k' v k : String) :
    rowGet (insertFirst m k' v) k
      = (rowGet m k).or (if k' == k then some v else none) := by
  unfold insertFirst
  cases hany : m.any (fun p => p.1 == k') with
  | true =>
    simp only [hany, if_true]
    by_cases hk : k' = k
    · subst hk
      rcases Option.isSome_iff_exists.mp (rowGet_isSome_of_any m k' hany) with ⟨w, hw⟩
      rw [hw]
      rfl
    · have : (k' == k) = false := by simpa using hk
      rw [this]
      simp
  | false =>
    simp only [hany, Bool.false_eq_true, if_false]
    unfold rowGet
    rw [List.find?_append]
    cases hf : m.find? (fun p => p.1 == k) with
    | none =>
      simp only [hf, Option.none_or, Option.map_none', Option.none_or]
      cases hk : (k' == k) with
      | true => simp [List.find?_cons, hk]
      | false => simp [List.find?_cons, hk]
    | some p =>
      simp [hf]

theorem harvestToken_of_empty (m : List (String × String)) (raw : String)
    (hb : toNorm (brandCanonicalize (getBase raw)) = "") :
    harvestToken m raw = m := by
  simp [harvestToken, hb]

theorem harvestToken_of_nonempty (m : List (String × String)) (raw : String)
    (hb : ¬ toNorm (brandCanonicalize (getBase raw)) = "") :
    harvestToken m raw
      = insertFirst m (toNorm (brandCanonicalize (getBase raw)))
          (brandCanonicalize (getBase raw)) := by
  simp [harvestToken, hb]

theorem rowGet_foldTokens :
    ∀ (ts : List String) (m : List (String × String)) (k : String),
      rowGet (ts.foldl harvestToken m) k
        = (rowGet m k).or
            (((ts.map (fun raw => brandCanonicalize (getBase raw))).filter
              (fun b => toNorm b ≠ "")).find? (fun b => toNorm b == k)) := by
  intro ts
  induction ts with
  | nil =>
    intro m k
    simp [Option.or_none]
  | cons raw rest ih =>
    intro m k
    rw [List.foldl_cons, ih]
    simp only [List.map_cons, List.filter_cons]
    by_cases hb : toNorm (brandCanonicalize (getBase raw)) = ""
    · rw [harvestToken_of_empty m raw hb]
      rw [if_neg (by simp [hb])]
    · rw [harvestToken_of_nonempty m raw hb]
      rw [if_pos (by simp [hb])]
      rw [rowGet_insertFirst m (toNorm (brandCanonicalize (getBase raw)))
        (brandCanonicalize (getBase raw)) k]
      rw [Option.or_assoc]
      refine congrArg (Option.or (rowGet m k)) ?_
      rw [List.find?_cons]
      cases hk : (toNorm (brandCanonicalize (getBase raw)) == k) with
      | true => simp [hk]
      | false => simp [hk]
/-- C5 (amended): the per-type catalog `Map` keyed by `baseNorm` does hold at
most one value per key, and a key's stored display is the first-seen
canonical base whose normal form produced it (later occurrences merge, first
display wins).  However, the final entry list recomputes each entry's
`baseNorm` from its display via `makeEntry`; the claimed "at most one entry
per (baseNorm, type)" therefore only follows when that recomputation agrees
with the map key (which fails for displays that still end in a parenthesized
group — see the counterexample). -/
theorem claim5_amended :
    ∀ (rows : List Row) (keys : List String) (ty : String),
      ((buildTypeMap rows keys).map (·.1)).Nodup
    ∧ (∀ k, rowGet (buildTypeMap rows keys) k =
        (tokenBases rows keys).find? (fun b => toNorm b == k))
    ∧ ((∀ p ∈ buildTypeMap rows keys, toNorm (brandCanonicalize (getBase p.2)) = p.1) →
        ((entriesOfMap (buildTypeMap rows keys) ty).map Entry.baseNorm).Nodup) := by
  intro rows keys ty
  have hnodup : ((buildTypeMap rows keys).map (·.1)).Nodup := by
    rw [buildTypeMap_eq_foldTokens]
    exact keys_foldTokens_nodup _ [] (by simp)
  refine ⟨hnodup, ?_, ?_⟩
  · intro k
    rw [buildTypeMap_eq_foldTokens, rowGet_foldTokens]
    rfl
  · intro hyp
    have hperm : List.Perm
        (((buildTypeMap rows keys).map (·.2)).insertionSort strRel)
        ((buildTypeMap rows keys).map (·.2)) := List.perm_insertionSort _ _
    have hmap : (entriesOfMap (buildTypeMap rows keys) ty).map Entry.baseNorm
        = (((buildTypeMap rows keys).map (·.2)).insertionSort strRel).map
            (fun d => toNorm (brandCanonicalize (getBase d))) := by
      simp only [entriesOfMap, List.map_map]
      rfl
    rw [hmap]
    rw [(hperm.map (fun d => toNorm (brandCanonicalize (getBase d)))).nodup_iff]
    rw [List.map_map]
    have h3 : (buildTypeMap rows keys).map
          ((fun d => toNorm (brandCanonicalize (getBase d))) ∘ (·.2))
        = (buildTypeMap rows keys).map (·.1) :=
      List.map_congr_left (fun p hp => hyp p hp)
    rw [h3]
    exact hnodup

/-- C5 (counterexample): with the input cell
`"HDFC (Visa) (X), HDFC"`, `loadAllCards` builds *two* credit entries whose
`baseNorm` is `"hdfc"` (the stored display `"HDFC (Visa)"` loses its
parenthesized tail when `makeEntry` re-derives the base), so the claimed
"at most one catalog entry per (baseNorm, type)" invariant fails. -/
theorem claim5_counterexample :
    ¬ ((creditEntriesOf [[("Eligible Credit Cards", "HDFC (Visa) (X), HDFC")]]).map
        Entry.baseNorm).Nodup := by
  decide

/-- C5 witness: on a regular catalog cell, the amended statement instantiates
to per-baseNorm uniqueness of the built entries. -/
theorem claim5_witness :
    ((creditEntriesOf [[("Eligible Credit Cards",
        "HDFC Regalia (Visa), ICICI Amazon Pay")]]).map Entry.baseNorm).Nodup := by
  exact (claim5_amended [[("Eligible Credit Cards", "HDFC Regalia (Visa), ICICI Amazon Pay")]]
    LIST_FIELDS_credit "credit").2.2 (by decide)

/-! ## Offer deduplication (claim C2) -/

theorem dedupWrappers_append :
    ∀ (xs ys : List Wrapper) (seen : List String),
      dedupWrappers (xs ++ ys) seen
        = ((dedupWrappers xs seen).1 ++ (dedupWrappers ys (dedupWrappers xs seen).2).1,
           (dedupWrappers ys (dedupWrappers xs seen).2).2) := by
  intro xs
  induction xs with
  | nil => intro ys seen; rfl
  | cons v rest ih =>
    intro ys seen
    rw [List.cons_append, dedupWrappers, dedupWrappers]
    by_cases hk : offerKey v.offer ∈ seen
    · rw [if_pos hk, if_pos hk, ih]
    · rw [if_neg hk, if_neg hk, ih]
      simp

theorem dedupWrappers_sublist :
    ∀ (arr : List Wrapper) (seen : List String),
      (dedupWrappers arr seen).1.Sublist arr := by
  intro arr
  induction arr with
  | nil => intro seen; exact List.Sublist.refl _
  | cons v rest ih =>
    intro seen
    rw [dedupWrappers]
    by_cases hk : offerKey v.offer ∈ seen
    · rw [if_pos hk]
      exact (ih seen).cons v
    · rw [if_neg hk]
      exact (ih _).cons₂ v

theorem dedupWrappers_key_not_seen :
    ∀ (arr : List Wrapper) (seen : List String),
      ∀ w ∈ (dedupWrappers arr seen).1, offerKey w.offer ∉ seen := by
  intro arr
  induction arr with
  | nil => intro seen w hw; simp [dedupWrappers] at hw
  | cons v rest ih =>
    intro seen w hw
    rw [dedupWrappers] at hw
    by_cases hk : offerKey v.offer ∈ seen
    · rw [if_pos hk] at hw
      exact ih seen w hw
    · rw [if_neg hk] at hw
      rcases List.mem_cons.mp hw with rfl | hw'
      · exact hk
      · have := ih _ w hw'
        intro hmem
        exact this (List.mem_cons_of_mem _ hmem)

theorem dedupWrappers_keys_nodup :
    ∀ (arr : List Wrapper) (seen : List String),
      ((dedupWrappers arr seen).1.map (fun w => offerKey w.offer)).Nodup := by
  intro arr
  induction arr with
  | nil => intro seen; simp [dedupWrappers]
  | cons v rest ih =>
    intro seen
    rw [dedupWrappers]
    by_cases hk : offerKey v.offer ∈ seen
    · rw [if_pos hk]
      exact ih seen
    · rw [if_neg hk]
      simp only [List.map_cons, List.nodup_cons]
      refine ⟨?_, ih _⟩
      intro hmem
      rcases List.mem_map.mp hmem with ⟨w, hw, hkey⟩
      have := dedupWrappers_key_not_seen rest _ w hw
      rw [hkey] at this
      exact this (List.mem_cons_self _ _)

theorem dedupWrappers_key_mem :
    ∀ (arr : List Wrapper) (seen : List String),
      ∀ w ∈ arr, offerKey w.offer ∉ seen →
        offerKey w.offer ∈ (dedupWrappers arr seen).1.map (fun w => offerKey w.offer) := by
  intro arr
  induction arr with
  | nil => intro seen w hw; simp at hw
  | cons v rest ih =>
    intro seen w hw hns
    rw [dedupWrappers]
    by_cases hk : offerKey v.offer ∈ seen
    · rw [if_pos hk]
      rcases List.mem_cons.mp hw with rfl | hw'
      · exact absurd hk hns
      · exact ih seen w hw' hns
    · rw [if_neg hk]
      simp only [List.map_cons]
      rcases List.mem_cons.mp hw with rfl | hw'
      · exact List.mem_cons_self _ _
      · by_cases heq : offerKey w.offer = offerKey v.offer
        · rw [heq]
          exact List.mem_cons_self _ _
        · refine List.mem_cons_of_mem _ ?_
          exact ih _ w hw' (by
            intro hmem
            rcases List.mem_cons.mp hmem with h1 | h1
            · exact heq h1
            · exact hns h1)

theorem dedupWrappers_find_first :
    ∀ (arr : List Wrapper) (seen : List String),
      ∀ w ∈ (dedupWrappers arr seen).1,
        arr.find? (fun v => offerKey v.offer == offerKey w.offer) = some w := by
  intro arr
  induction arr with
  | nil => intro seen w hw; simp [dedupWrappers] at hw
  | cons v rest ih =>
    intro seen w hw
    rw [dedupWrappers] at hw
    by_cases hk : offerKey v.offer ∈ seen
    · rw [if_pos hk] at hw
      have hne : offerKey v.offer ≠ offerKey w.offer := by
        intro h
        exact dedupWrappers_key_not_seen rest seen w hw (h ▸ hk)
      rw [List.find?_cons]
      have : (offerKey v.offer == offerKey w.offer) = false := by simpa using hne
      rw [this]
      exact ih seen w hw
    · rw [if_neg hk] at hw
      rcases List.mem_cons.mp hw with rfl | hw'
      · rw [List.find?_cons]
        have : (offerKey w.offer == offerKey w.offer) = true := by simp
        rw [this]
      · have hns := dedupWrappers_key_not_seen rest _ w hw'
        have hne : offerKey v.offer ≠ offerKey w.offer := by
          intro h
          exact hns (h ▸ List.mem_cons_self _ _)
        rw [List.find?_cons]
        have : (offerKey v.offer == offerKey w.offer) = false := by simpa using hne
        rw [this]
        exact ih _ w hw'

/-- C2: walking the Swiggy list then the Zomato list with one shared `seen`
set equals deduplicating their concatenation; the result is a sublist of the
input in which each content fingerprint (`offerKey`: normalized title,
description, image URL and link URL joined by `||`) appears exactly once, no
fingerprint is lost, and each surviving wrapper is the *first* offer of the
provider-priority traversal bearing its fingerprint — so a later Zomato row
identical to a Swiggy row in those four fields is discarded even when the
coupon codes differ, as the concrete instance in the last conjunct shows. -/
theorem claim2_fingerprint_dedup :
    (∀ sw zo : List Wrapper,
      ((dedupWrappers sw []).1 ++ (dedupWrappers zo (dedupWrappers sw []).2).1
          = (dedupWrappers (sw ++ zo) []).1)
    ∧ ((dedupWrappers (sw ++ zo) []).1.Sublist (sw ++ zo))
    ∧ (((dedupWrappers (sw ++ zo) []).1.map (fun w => offerKey w.offer)).Nodup)
    ∧ (∀ w ∈ sw ++ zo, offerKey w.offer ∈
        (dedupWrappers (sw ++ zo) []).1.map (fun w => offerKey w.offer))
    ∧ (∀ w ∈ (dedupWrappers (sw ++ zo) []).1,
        (sw ++ zo).find? (fun v => offerKey v.offer == offerKey w.offer) = some w))
  ∧ ((dedupWrappers
        [⟨[("Offer Title", "10% off"), ("Description", "Save"),
           ("Link", "https://x.com/a"), ("Coupon code", "AAA")], "Swiggy", ""⟩] []).1
      ++ (dedupWrappers
        [⟨[("Offer Title", "10% off"), ("Description", "Save"),
           ("Link", "https://x.com/a"), ("Coupon code", "BBB")], "Zomato", ""⟩]
        (dedupWrappers
          [⟨[("Offer Title", "10% off"), ("Description", "Save"),
             ("Link", "https://x.com/a"), ("Coupon code", "AAA")], "Swiggy", ""⟩] []).2).1
      = [⟨[("Offer Title", "10% off"), ("Description", "Save"),
           ("Link", "https://x.com/a"), ("Coupon code", "AAA")], "Swiggy", ""⟩]) := by
  constructor
  · intro sw zo
    refine ⟨?_, dedupWrappers_sublist _ _, dedupWrappers_keys_nodup _ _, ?_, ?_⟩
    · rw [dedupWrappers_append]
    · intro w hw
      exact dedupWrappers_key_mem _ [] w hw (by simp)
    · intro w hw
      exact dedupWrappers_find_first _ [] w hw
  · decide

/-- C2 witness: the first-occurrence property applied to a concrete pair of
distinct offers. -/
theorem claim2_witness :
    ([(⟨[("Offer Title", "A")], "Swiggy", ""⟩ : Wrapper),
      ⟨[("Offer Title", "B")], "Zomato", ""⟩].find?
        (fun v => offerKey v.offer == offerKey ([("Offer Title", "B")] : Row))
      = some ⟨[("Offer Title", "B")], "Zomato", ""⟩) := by
  have h := (claim2_fingerprint_dedup.1 [⟨[("Offer Title", "A")], "Swiggy", ""⟩]
    [⟨[("Offer Title", "B")], "Zomato", ""⟩]).2.2.2.2
    ⟨[("Offer Title", "B")], "Zomato", ""⟩ (by decide)
  exact h

/-! ## Suggestion pipeline (claim C4) -/

theorem listLe_cons_iff (a b : Char) (as bs : List Char) :
    listLe (a :: as) (b :: bs) = true ↔ (a < b ∨ (a = b ∧ listLe as bs = true)) := by
  rw [listLe]
  split_ifs with h1 h2
  · simp [h1]
  · simp [h1, h2]
  · simp [h1, h2]

theorem listLe_total : ∀ (a b : List Char), listLe a b = true ∨ listLe b a = true := by
  intro a
  induction a with
  | nil => intro b; left; rfl
  | cons x xs ih =>
    intro b
    cases b with
    | nil => right; rfl
    | cons y ys =>
      rcases lt_trichotomy x y with h | h | h
      · left
        rw [listLe_cons_iff]
        exact Or.inl h
      · rcases ih ys with h2 | h2
        · left
          rw [listLe_cons_iff]
          exact Or.inr ⟨h, h2⟩
        · right
          rw [listLe_cons_iff]
          exact Or.inr ⟨h.symm, h2⟩
      · right
        rw [listLe_cons_iff]
        exact Or.inl h

theorem listLe_trans :
    ∀ (a b c : List Char), listLe a b = true → listLe b c = true → listLe a c = true := by
  intro a
  induction a with
  | nil => intro b c _ _; rfl
  | cons x xs ih =>
    intro b c hab hbc
    cases b with
    | nil => simp [listLe] at hab
    | cons y ys =>
      cases c with
      | nil => simp [listLe] at hbc
      | cons z zs =>
        rw [listLe_cons_iff] at hab hbc ⊢
        rcases hab with h1 | ⟨rfl, h1⟩
        · rcases hbc with h2 | ⟨rfl, h2⟩
          · exact Or.inl (lt_trans h1 h2)
          · exact Or.inl h1
        · rcases hbc with h2 | ⟨rfl, h2⟩
          · exact Or.inl h2
          · exact Or.inr ⟨rfl, ih _ _ h1 h2⟩

theorem strLe_total (a b : String) : strLe a b = true ∨ strLe b a = true :=
  listLe_total a.toList b.toList

theorem strLe_trans (a b c : String) :
    strLe a b = true → strLe b c = true → strLe a c = true :=
  listLe_trans a.toList b.toList c.toList

theorem suggRel_unfold (a b : Entry × ℚ × Bool) :
    suggRel a b ↔
      (b.2.1 < a.2.1 ∨ (a.2.1 = b.2.1 ∧ strLe a.1.display b.1.display = true)) := by
  unfold suggRel suggestionLe
  simp [Bool.or_eq_true, Bool.and_eq_true, decide_eq_true_eq]

instance : IsTotal (Entry × ℚ × Bool) suggRel := by
  constructor
  intro a b
  rw [suggRel_unfold, suggRel_unfold]
  rcases lt_trichotomy a.2.1 b.2.1 with h | h | h
  · right; exact Or.inl h
  · rcases strLe_total a.1.display b.1.display with h2 | h2
    · left; exact Or.inr ⟨h, h2⟩
    · right; exact Or.inr ⟨h.symm, h2⟩
  · left; exact Or.inl h

instance : IsTrans (Entry × ℚ × Bool) suggRel := by
  constructor
  intro a b c hab hbc
  rw [suggRel_unfold] at hab hbc ⊢
  rcases hab with h1 | ⟨he1, h1⟩
  · rcases hbc with h2 | ⟨he2, h2⟩
    · exact Or.inl (lt_trans h2 h1)
    · exact Or.inl (he2 ▸ h1)
  · rcases hbc with h2 | ⟨he2, h2⟩
    · exact Or.inl (lt_of_lt_of_eq h2 he1.symm)
    · exact Or.inr ⟨he1.trans he2, strLe_trans _ _ _ h1 h2⟩

/-- C4 (amended): the per-type suggestion list of `onChangeQuery` contains
exactly the catalog entries that either contain the trimmed lowercased query
as a raw substring of their display (`inc`) *or* score above 0.3 — not
"score above the threshold" alone — sorted descending by score with ties
broken by display name, and truncated to `MAX_SUGGESTIONS` (50); the
exactness direction holds whenever truncation does not bite. -/
theorem claim4_amended :
    ∀ (val : String) (entries : List Entry),
      (scoredPipeline val entries).length ≤ MAX_SUGGESTIONS
    ∧ (∀ e ∈ scoredPipeline val entries, e ∈ entries ∧
        (strContains (jsToLower e.display) (jsToLower (jsTrim val)) = true
          ∨ scoreCandidate val e.display > 3 / 10))
    ∧ ((entries.filter (fun it =>
          strContains (jsToLower it.display) (jsToLower (jsTrim val))
            || decide (scoreCandidate val it.display > 3 / 10))).length
            ≤ MAX_SUGGESTIONS →
        ∀ e ∈ entries,
          (strContains (jsToLower e.display) (jsToLower (jsTrim val)) = true
            ∨ scoreCandidate val e.display > 3 / 10) →
          e ∈ scoredPipeline val entries)
    ∧ (scoredPipeline val entries).Pairwise (fun a b =>
        scoreCandidate val b.display < scoreCandidate val a.display
        ∨ (scoreCandidate val a.display = scoreCandidate val b.display
            ∧ strLe a.display b.display = true)) := by
  intro val entries
  set q := jsToLower (jsTrim val) with hq
  set scored := entries.map (fun it =>
    (it, scoreCandidate val it.display, strContains (jsToLower it.display) q))
    with hscored
  set filtered := scored.filter (fun x => x.2.2 || decide (x.2.1 > 3 / 10))
    with hfiltered
  set sorted := filtered.insertionSort suggRel with hsorted
  have hpipe : scoredPipeline val entries = (sorted.take MAX_SUGGESTIONS).map (·.1) := by
    rw [hsorted, hfiltered, hscored, hq]
    rfl
  have hmem_scored :
      ∀ x ∈ sorted.take MAX_SUGGESTIONS,
        ∃ it ∈ entries,
          x = (it, scoreCandidate val it.display, strContains (jsToLower it.display) q) := by
    intro x hx
    have hxs : x ∈ sorted := List.mem_of_mem_take hx
    rw [hsorted] at hxs
    have hxf : x ∈ filtered := (List.perm_insertionSort _ _).mem_iff.mp hxs
    rw [hfiltered] at hxf
    have hxsc := (List.mem_filter.mp hxf).1
    rw [hscored] at hxsc
    rcases List.mem_map.mp hxsc with ⟨it, hit, hxeq⟩
    exact ⟨it, hit, hxeq.symm⟩
  have hpred_of_mem :
      ∀ x ∈ sorted.take MAX_SUGGESTIONS, (x.2.2 || decide (x.2.1 > 3 / 10)) = true := by
    intro x hx
    have hxs : x ∈ sorted := List.mem_of_mem_take hx
    rw [hsorted] at hxs
    have hxf : x ∈ filtered := (List.perm_insertionSort _ _).mem_iff.mp hxs
    rw [hfiltered] at hxf
    exact (List.mem_filter.mp hxf).2
  refine ⟨?_, ?_, ?_, ?_⟩
  · rw [hpipe, List.length_map, List.length_take]
    exact min_le_left _ _
  · intro e he
    rw [hpipe] at he
    rcases List.mem_map.mp he with ⟨x, hx, rfl⟩
    rcases hmem_scored x hx with ⟨it, hit, rfl⟩
    refine ⟨hit, ?_⟩
    have hp := hpred_of_mem _ hx
    rcases Bool.or_eq_true .. |>.mp hp with h | h
    · left
      exact h
    · right
      exact of_decide_eq_true h
  · intro hlen e he hpred
    have hflen : filtered.length ≤ MAX_SUGGESTIONS := by
      rw [hfiltered, hscored, List.filter_map, List.length_map]
      rw [hq]
      exact hlen
    have hslen : sorted.length = filtered.length := by
      rw [hsorted]
      exact (List.perm_insertionSort _ _).length_eq
    have htake : sorted.take MAX_SUGGESTIONS = sorted :=
      List.take_of_length_le (by omega)
    have hmemsc : (e, scoreCandidate val e.display, strContains (jsToLower e.display) q)
        ∈ scored := by
      rw [hscored]
      exact List.mem_map_of_mem _ he
    have hpredx : (((e, scoreCandidate val e.display,
        strContains (jsToLower e.display) q)).2.2
          || decide (((e, scoreCandidate val e.display,
            strContains (jsToLower e.display) q)).2.1 > 3 / 10)) = true := by
      rcases hpred with h | h
      · rw [hq]
        simp [h]
      · simp [h]
    have hmemf : (e, scoreCandidate val e.display, strContains (jsToLower e.display) q)
        ∈ filtered := by
      rw [hfiltered]
      exact List.mem_filter.mpr ⟨hmemsc, hpredx⟩
    have hmems : (e, scoreCandidate val e.display, strContains (jsToLower e.display) q)
        ∈ sorted := by
      rw [hsorted]
      exact (List.perm_insertionSort _ _).mem_iff.mpr hmemf
    rw [hpipe, htake]
    exact List.mem_map_of_mem _ hmems
  · have hs : sorted.Pairwise suggRel := by
      rw [hsorted]
      exact List.sorted_insertionSort suggRel filtered
    have hs2 : (sorted.take MAX_SUGGESTIONS).Pairwise suggRel :=
      List.Pairwise.sublist (List.take_sublist _ _) hs
    have hs3 : (sorted.take MAX_SUGGESTIONS).Pairwise (fun x y =>
        scoreCandidate val y.1.display < scoreCandidate val x.1.display
        ∨ (scoreCandidate val x.1.display = scoreCandidate val y.1.display
            ∧ strLe x.1.display y.1.display = true)) := by
      refine List.Pairwise.imp_of_mem ?_ hs2
      intro x y hxm hym hr
      rw [suggRel_unfold] at hr
      rcases hmem_scored x hxm with ⟨itx, _, rfl⟩
      rcases hmem_scored y hym with ⟨ity, _, rfl⟩
      exact hr
    rw [hpipe]
    refine List.Pairwise.map (fun x => x.1) ?_ hs3
    intro a b h
    exact h

/-- C4 (counterexample): the claim says the suggestion list contains exactly
the candidates whose score exceeds the threshold; but an entry whose display
merely contains the raw query is kept even with score 0: for the query `"&"`
and catalog entry `"J&K Bank"`, the pipeline returns the entry although its
score is 0 (and 0 does not exceed 0.3). -/
theorem claim4_counterexample :
    scoredPipeline "&" [makeEntry "J&K Bank" "credit"] = [makeEntry "J&K Bank" "credit"]
  ∧ scoreCandidate "&" (makeEntry "J&K Bank" "credit").display = 0
  ∧ ¬ ((0 : ℚ) > 3 / 10) := by
  refine ⟨by decide, by decide, by norm_num⟩

/-- C4 witness: the exactness direction at a concrete query and catalog. -/
theorem claim4_witness :
    makeEntry "HDFC Regalia" "credit"
      ∈ scoredPipeline "hdfc" [makeEntry "HDFC Regalia" "credit"] := by
  exact (claim4_amended "hdfc" [makeEntry "HDFC Regalia" "credit"]).2.2.1 (by decide)
    (makeEntry "HDFC Regalia" "credit") (by decide) (Or.inl (by decide))

/-! ## Offer matching (claim C1) -/

theorem rowMatchLoop_eq_find (s : Entry) :
    ∀ L : List String,
      rowMatchLoop s L
        = (L.find? (fun t => toNorm (brandCanonicalize (getBase t)) == s.baseNorm)).map
            getVariant := by
  intro L
  induction L with
  | nil => rfl
  | cons t rest ih =>
    rw [rowMatchLoop, List.find?_cons]
    by_cases h : toNorm (brandCanonicalize (getBase t)) = s.baseNorm
    · rw [if_pos h]
      have hb : (toNorm (brandCanonicalize (getBase t)) == s.baseNorm) = true := by
        simp [h]
      rw [hb]
      rfl
    · rw [if_neg h]
      have hb : (toNorm (brandCanonicalize (getBase t)) == s.baseNorm) = false := by
        simp [h]
      rw [hb]
      exact ih

/-- C1 (amended): for every selected entry and offer row, the matcher includes
the row exactly when some token of the row's resolved applicable-instruments
list has a canonical base whose normal form equals the selected `baseNorm` —
in particular a variant suffix on a token never blocks inclusion — and the
wrapper's `variantText` is `getVariant` of the *first matching token* (the
loop breaks there), which may be empty even when a later matching token
carries a non-empty variant. -/
theorem claim1_amended :
    ∀ (s : Entry) (offers : List Row) (ty site : String),
      (∀ o ∈ offers,
        (((matchesFor offers ty site (some s)).any (fun w => w.offer == o)) = true ↔
          ∃ t ∈ resolveListFor ty o,
            toNorm (brandCanonicalize (getBase t)) = s.baseNorm))
    ∧ (∀ w ∈ matchesFor offers ty site (some s),
        w.site = site ∧ w.offer ∈ offers ∧
        ∃ t, (resolveListFor ty w.offer).find?
              (fun t => toNorm (brandCanonicalize (getBase t)) == s.baseNorm) = some t
          ∧ w.variantText = getVariant t) := by
  intro s offers ty site
  constructor
  · intro o ho
    constructor
    · intro hany
      rcases List.any_eq_true.mp hany with ⟨w, hw, hwo⟩
      rcases List.mem_filterMap.mp hw with ⟨o', ho', hg⟩
      rcases Option.map_eq_some'.mp hg with ⟨v, hv, hweq⟩
      have hoo : o' = o := by
        have : w.offer = o := by simpa using hwo
        rw [← this, ← hweq]
      subst hoo
      rw [rowMatchLoop_eq_find] at hv
      rcases Option.map_eq_some'.mp hv with ⟨t, hfind, _⟩
      refine ⟨t, List.mem_of_find?_eq_some hfind, ?_⟩
      simpa using List.find?_some hfind
    · rintro ⟨t, ht, hmatch⟩
      have hsome : ((resolveListFor ty o).find?
          (fun t => toNorm (brandCanonicalize (getBase t)) == s.baseNorm)).isSome := by
        rw [List.find?_isSome]
        exact ⟨t, ht, by simpa using hmatch⟩
      rcases Option.isSome_iff_exists.mp hsome with ⟨t0, hfind⟩
      rw [List.any_eq_true]
      refine ⟨⟨o, site, getVariant t0⟩, ?_, by simp⟩
      refine List.mem_filterMap.mpr ⟨o, ho, ?_⟩
      rw [rowMatchLoop_eq_find, hfind]
      rfl
  · intro w hw
    rcases List.mem_filterMap.mp hw with ⟨o, ho, hg⟩
    rcases Option.map_eq_some'.mp hg with ⟨v, hv, hweq⟩
    rw [rowMatchLoop_eq_find] at hv
    rcases Option.map_eq_some'.mp hv with ⟨t, hfind, hvt⟩
    subst hweq
    exact ⟨rfl, ho, t, hfind, hvt.symm⟩

/-- C1 (counterexample): the claim says `variantText` is the first *non-empty*
variant among matching tokens; but the loop breaks at the first matching
token regardless.  With tokens `"HDFC Regalia, HDFC Regalia (Visa Signature)"`
and selected base `"hdfc regalia"`, the code yields `variantText = ""` while
the first non-empty variant among matching tokens is `"Visa Signature"`. -/
theorem claim1_counterexample :
    (matchesFor [[("Eligible Credit Cards", "HDFC Regalia, HDFC Regalia (Visa Signature)")]]
        "credit" "Swiggy" (some (makeEntry "HDFC Regalia" "credit"))).map
          Wrapper.variantText = [""]
  ∧ specVariantText (makeEntry "HDFC Regalia" "credit")
      (resolveListFor "credit"
        [("Eligible Credit Cards", "HDFC Regalia, HDFC Regalia (Visa Signature)")])
      = "Visa Signature"
  ∧ ("" : String) ≠ "Visa Signature" := by
  refine ⟨by decide, by decide, by decide⟩

/-- C1 witness: a token carrying a variant suffix still matches a selected
instrument with no variant constraint (the spec's `"ICICI Amazon Pay (RuPay)"`
style scenario, run on the `"HDFC Regalia (Visa Signature)"` row). -/
theorem claim1_witness :
    ((matchesFor [[("Applicable to Credit cards", "HDFC Regalia (Visa Signature)")]]
        "credit" "Swiggy" (some (makeEntry "HDFC Regalia" "credit"))).any
      (fun w => w.offer == [("Applicable to Credit cards", "HDFC Regalia (Visa Signature)")]))
      = true := by
  exact ((claim1_amended (makeEntry "HDFC Regalia" "credit")
      [[("Applicable to Credit cards", "HDFC Regalia (Visa Signature)")]] "credit" "Swiggy").1
      [("Applicable to Credit cards", "HDFC Regalia (Visa Signature)")] (by decide)).mpr
    ⟨"HDFC Regalia (Visa Signature)", by decide, by decide⟩
